import Mathlib

/-!
Verification of the abideify pipeline (chunking, bounded-concurrency dispatch,
ordered reassembly, per-unit failure handling, artifact cleanup).

Text is embedded as `List Char` (Python `str`); character-level library
operations (`str.strip`, `str.split`, `re.split`, `re.sub`) are embedded
faithfully below. Remote calls are parameters: each unit's remote outcome is
an explicit input, so the pure control flow of the source is what is modelled.
-/

/-- Python whitespace (`str.split` / `str.strip` default set, ASCII part). -/
def pySpace (c : Char) : Bool :=
  c = ' ' || c = '\t' || c = '\n' || c = '\r' || c = '\x0b' || c = '\x0c'

/-- Python `str.strip()`: drop trailing, then leading whitespace. -/
def pyStrip (l : List Char) : List Char :=
  ((l.reverse.dropWhile pySpace).reverse).dropWhile pySpace

/-- Helper for Python `str.split()` (no argument): accumulate a word in
reverse, flush at whitespace, never emit empty words. -/
def pyWordsAux : List Char → List Char → List (List Char)
  | [], cur => if cur.isEmpty then [] else [cur.reverse]
  | c :: cs, cur =>
    if pySpace c then
      if cur.isEmpty then pyWordsAux cs [] else cur.reverse :: pyWordsAux cs []
    else pyWordsAux cs (c :: cur)

/-- Python `text.split()`: whitespace-delimited words, empties dropped. -/
def pyWords (l : List Char) : List (List Char) := pyWordsAux l []

/-- Sentence-ending punctuation of the regex `(?<=[.!?]) +`. -/
def isPunct (c : Char) : Bool := c = '.' || c = '!' || c = '?'

/-- Embedding of `re.split(r'(?<=[.!?]) +', text)` (ai_processor.py line 51):
 scan left to right; at a punctuation character directly followed by a space,
 close the current piece (punctuation included) and skip the whole space run.
 The fuel argument only bounds recursion; each step consumes at least one
 character, so fuel `= length` never reaches the (dead) zero case. -/
def sentSplitFuel : Nat → List Char → List Char → List (List Char)
  | _, [], acc => [acc.reverse]
  | 0, l, acc => [acc.reverse ++ l]
  | fuel + 1, c :: rest, acc =>
    if isPunct c ∧ rest.head? = some ' ' then
      (acc.reverse ++ [c]) :: sentSplitFuel fuel (rest.dropWhile (· = ' ')) []
    else
      sentSplitFuel fuel rest (c :: acc)

/-- The sentence list `re.split(r'(?<=[.!?]) +', text)` produces. -/
def sentence_split (l : List Char) : List (List Char) :=
  sentSplitFuel l.length l []

/-- The loop body of `AIProcessor.split_text_into_chunks`
(ai_processor.py lines 52-67): `current` is the accumulated string
`current_chunk`; a sentence is appended (plus one space) while the size check
passes, otherwise the nonempty current chunk is flushed stripped and the
sentence starts a new chunk; the trailing chunk is flushed at the end. -/
def chunksFromSentences (maxChunkSize : Int) :
    List (List Char) → List Char → List (List Char)
  | [], current =>
    if current.isEmpty then [] else [pyStrip current]
  | s :: rest, current =>
    if (current.length + s.length + 1 : Int) ≤ maxChunkSize then
      chunksFromSentences maxChunkSize rest (current ++ s ++ [' '])
    else
      (if current.isEmpty then [] else [pyStrip current]) ++
        chunksFromSentences maxChunkSize rest (s ++ [' '])

/-- `AIProcessor.split_text_into_chunks(self, text)` with
`self.max_chunk_size = maxChunkSize` (ai_processor.py lines 41-67). -/
def split_text_into_chunks (maxChunkSize : Int) (text : List Char) :
    List (List Char) :=
  chunksFromSentences maxChunkSize (sentence_split text) []

/-- Python `" ".join(words)`. -/
def joinSp : List (List Char) → List Char
  | [] => []
  | [w] => w
  | w :: ws => w ++ ' ' :: joinSp ws

/-- The loop body of `chunk_text` (unreal_cli.py lines 11-29): `current` is
the word list `current_chunk`, `curLen` the running `current_length`. When
the would-be length overflows, the current chunk is flushed (joined with
spaces, even when empty) and the word starts a new chunk; otherwise the word
is appended and the length advanced by `len(w) + 1`. -/
def chunksFromWords (chunkSize : Int) :
    List (List Char) → List (List Char) → Nat → List (List Char)
  | [], current, _ =>
    if current.isEmpty then [] else [joinSp current]
  | w :: rest, current, curLen =>
    if (curLen + w.length + 1 : Int) > chunkSize then
      joinSp current :: chunksFromWords chunkSize rest [w] w.length
    else
      chunksFromWords chunkSize rest (current ++ [w]) (curLen + w.length + 1)

/-- `chunk_text(text, chunk_size)` (unreal_cli.py lines 6-29). -/
def chunk_text (text : List Char) (chunkSize : Int) : List (List Char) :=
  chunksFromWords chunkSize (pyWords text) [] 0

/-- The raw `current_chunk` string a sentence group accumulates to:
each sentence followed by one space. -/
def rawOf (g : List (List Char)) : List Char :=
  (g.map (fun s => s ++ [' '])).flatten

/-! ## Final-output whitespace normalization

`PDFConverter.format_final_markdown` (converter.py lines 74-79) is
`re.sub(r'\n{3,}', '\n\n', markdown_text)`: every maximal run of three or
more consecutive newlines becomes exactly two; shorter runs are kept. -/

/-- The newlines emitted for a pending run of `p` consecutive newlines:
runs of three or more collapse to two, shorter runs are kept. -/
def emitNl (p : Nat) : List Char :=
  List.replicate (if 3 ≤ p then 2 else p) '\n'

/-- Scanner for `re.sub(r'\n{3,}', '\n\n', text)`: `p` counts the newlines
read since the last non-newline character; a maximal run is resolved when a
non-newline character (or the end of input) is reached. -/
def ffmAux : List Char → Nat → List Char
  | [], p => emitNl p
  | c :: cs, p =>
    if c = '\n' then ffmAux cs (p + 1)
    else emitNl p ++ c :: ffmAux cs 0

/-- `PDFConverter.format_final_markdown` (converter.py lines 74-79). -/
def format_final_markdown (text : List Char) : List Char := ffmAux text 0

/-! ## Text-simplification stage

`process_chunk_with_ai` (ai_processor.py lines 69-96) and
`_validate_markdown` (lines 98-111). The remote call is opaque: a unit's
remote outcome (response text, or the exception message of a failed call)
and the outcome of the external markdown parse attempt are inputs. Log
messages are part of the returned value instead of a side channel. -/

inductive RemoteOutcome where
  | ok (text : List Char)
  | err (msg : List Char)
deriving DecidableEq

/-- The message `logger.error` receives on the per-chunk failure path
(ai_processor.py line 95); it interpolates only the exception. -/
def aiFailLogMsg (e : List Char) : List Char :=
  "AI processing failed for chunk: ".data ++ e

/-- The message `logger.warning` receives when the markdown parse attempt
fails (ai_processor.py line 109). -/
def mdWarnMsg (e : List Char) : List Char :=
  "Markdown validation failed: ".data ++ e

/-- The `RuntimeError` message of ai_processor.py line 80. -/
def rtNotInitMsg : List Char := "OpenAI client not initialized".data

/-- `AIProcessor._validate_markdown` (ai_processor.py lines 98-111): attempt
the external parse; on failure only log a warning; return the input text
unchanged in both branches. Result is (returned text, emitted logs). -/
def validate_markdown (parse : Except (List Char) Unit) (t : List Char) :
    List Char × List (List Char) :=
  match parse with
  | Except.ok _ => (t, [])
  | Except.error e => (t, [mdWarnMsg e])

/-- `AIProcessor.process_chunk_with_ai` (ai_processor.py lines 69-96):
if the client is not initialised, raise `RuntimeError` (before the
`try`, hence uncaught); otherwise the remote call's failure is absorbed into
an empty-string result with an error log, and its success is passed through
`_validate_markdown`. Result value is (chunk result, emitted logs). -/
def process_chunk_with_ai (clientReady : Bool) (remote : RemoteOutcome)
    (parse : Except (List Char) Unit) :
    Except (List Char) (List Char × List (List Char)) :=
  if clientReady then
    match remote with
    | RemoteOutcome.ok t => Except.ok (validate_markdown parse t)
    | RemoteOutcome.err e => Except.ok ([], [aiFailLogMsg e])
  else
    Except.error rtNotInitMsg

/-- One unit of the text stage: its remote outcome and its parse outcome. -/
abbrev TextUnit := RemoteOutcome × Except (List Char) Unit

/-- The slot a unit resolves to in `simplified_list` (cli.py line 76). -/
def chunkResult (u : TextUnit) : List Char :=
  match process_chunk_with_ai true u.1 u.2 with
  | Except.ok v => v.1
  | Except.error _ => []

/-- The logs a unit's processing emits. -/
def chunkLogs (u : TextUnit) : List (List Char) :=
  match process_chunk_with_ai true u.1 u.2 with
  | Except.ok v => v.2
  | Except.error _ => []

/-- `simplified_list = await asyncio.gather(*tasks)` (cli.py lines 75-76):
one slot per unit, in index order. -/
def simplified_list (units : List TextUnit) : List (List Char) :=
  units.map chunkResult

/-- All logs the batch emits. -/
def stage_logs (units : List TextUnit) : List (List Char) :=
  (units.map chunkLogs).flatten

/-- The blank-line separator of `"\n\n".join` (cli.py line 77). -/
def nl2 : List Char := ['\n', '\n']

/-- `"\n\n".join(filter(None, simplified_list))` (cli.py line 77). -/
def simplified_joined (units : List TextUnit) : List Char :=
  List.intercalate nl2 ((simplified_list units).filter (fun t => !t.isEmpty))

/-- The final simplified text (cli.py lines 77-78). -/
def simplified_content (units : List TextUnit) : List Char :=
  format_final_markdown (simplified_joined units)

/-! ## The dispatcher: `asyncio.gather` under scrambled completion

cli.py lines 75-76 dispatch one task per chunk and `asyncio.gather` them.
`gather` allots one result slot per task, in argument order; each task fills
only its own slot when it completes. `gatherScrambled` makes the completion
order an explicit input: the slots are written in the order `order` lists
them, so an adversarial completion order is any permutation of the index
range. -/

def gatherScrambled {α β : Type} (chunks : List α) (f : α → β)
    (order : List Nat) : List (Option β) :=
  order.foldl (fun acc i => acc.set i (chunks[i]?.map f))
    (List.replicate chunks.length none)

/-! ## Audio-synthesis stage

`UnrealSpeechTTSService.synthesize_text` (tts_service.py lines 26-76) and
the sequential synthesis loop (cli.py lines 101-116, unreal_cli.py lines
67-89). The filesystem is an explicit set of paths (a duplicate-free list);
audio content is opaque (`List Nat` of samples, concatenation is append,
`AudioSegment.silent(duration=0)` is `[]`). The wall-clock timestamp of
`datetime.now().strftime('%Y%m%d_%H%M%S')` is an explicit per-unit input. -/

inductive SynthOutcome where
  | http200 (audio : List Nat)
  | httpFail (code : Nat) (body : List Char)
  | requestExc (msg : List Char)
deriving DecidableEq

def tempMp3 : List Char := "temp_response.mp3".data
def tempWav : List Char := "temp_response.wav".data

/-- The retained path `os.path.join(tts_audio_dir, f"response_{ts}.wav")`
(tts_service.py line 63). -/
def debugWavPath (dir ts : List Char) : List Char :=
  dir ++ "/response_".data ++ ts ++ ".wav".data

/-- Create a file (sets are duplicate-free: creating an existing path
overwrites its content, leaving the path set unchanged). -/
def addFile (fs : List (List Char)) (p : List Char) : List (List Char) :=
  if p ∈ fs then fs else fs ++ [p]

/-- `os.remove` / the removal half of `os.rename`. -/
def removeFile (fs : List (List Char)) (p : List Char) : List (List Char) :=
  fs.erase p

/-- `UnrealSpeechTTSService.synthesize_text` (tts_service.py lines 26-76) on
the filesystem `fs`: on HTTP 200, write the temp MP3, convert it to the temp
WAV, remove the MP3, and either rename the WAV to the timestamped debug path
(debug mode) or return the temp WAV path; on a non-200 response or a request
exception, return `None` having written nothing. Returns (the `Optional`
path paired with the audio the file holds, the filesystem after the call). -/
def synthesize_text (debugMode : Bool) (dir ts : List Char)
    (oc : SynthOutcome) (fs : List (List Char)) :
    Option (List Char × List Nat) × List (List Char) :=
  match oc with
  | SynthOutcome.http200 a =>
    let fs1 := addFile fs tempMp3
    let fs2 := addFile fs1 tempWav
    let fs3 := removeFile fs2 tempMp3
    if debugMode then
      let dbg := debugWavPath dir ts
      (some (dbg, a), addFile (removeFile fs3 tempWav) dbg)
    else
      (some (tempWav, a), fs3)
  | SynthOutcome.httpFail _ _ => (none, fs)
  | SynthOutcome.requestExc _ => (none, fs)

/-- One unit of the audio stage: its remote outcome and the timestamp its
call would stamp a debug artifact with. -/
abbrev AudioUnit := SynthOutcome × List Char

/-- One iteration of the synthesis loop (cli.py lines 103-114,
unreal_cli.py lines 69-86): call `synthesize_text`; a `None` return is
skipped (with a logged index); a successful chunk's audio is appended to
the accumulating track and, when not in debug mode, its WAV file is
removed. State is (filesystem, accumulated segments). -/
def ttsStep (debugMode : Bool) (dir : List Char)
    (st : List (List Char) × List (List Nat)) (u : AudioUnit) :
    List (List Char) × List (List Nat) :=
  let r := synthesize_text debugMode dir u.2 u.1 st.1
  match r.1 with
  | none => (r.2, st.2)
  | some pa =>
    ((if debugMode then r.2 else removeFile r.2 pa.1), st.2 ++ [pa.2])

/-- The full synthesis loop, started on an empty filesystem and the
zero-length track. -/
def ttsRun (debugMode : Bool) (dir : List Char) (units : List AudioUnit) :
    List (List Char) × List (List Nat) :=
  units.foldl (ttsStep debugMode dir) ([], [])

/-- `final_audio` after the loop: the concatenation of the successful
segments in order (`AudioSegment.silent(duration=0)` plus each segment). -/
def tts_final_audio (debugMode : Bool) (dir : List Char)
    (units : List AudioUnit) : List Nat :=
  (ttsRun debugMode dir units).2.flatten

/-- The timestamps of the units whose synthesis succeeds. -/
def succTs (units : List AudioUnit) : List (List Char) :=
  units.filterMap (fun u =>
    match u.1 with
    | SynthOutcome.http200 _ => some u.2
    | _ => none)

/-- The audio of the units whose synthesis succeeds, in order. -/
def succAudio (units : List AudioUnit) : List (List Nat) :=
  units.filterMap (fun u =>
    match u.1 with
    | SynthOutcome.http200 a => some a
    | _ => none)

/-- The rewritten texts of the text-stage units whose remote call
succeeds, in index order. -/
def okTexts (units : List TextUnit) : List (List Char) :=
  units.filterMap (fun u =>
    match u.1 with
    | RemoteOutcome.ok t => some t
    | RemoteOutcome.err _ => none)

/-! ## Helper lemmas -/

theorem length_dropWhile_le (p : Char → Bool) (l : List Char) :
    (l.dropWhile p).length ≤ l.length := by
  induction l with
  | nil => simp [List.dropWhile]
  | cons c cs ih =>
    simp only [List.dropWhile]
    split
    · simp only [List.length_cons]; omega
    · simp

theorem pyStrip_length_le (l : List Char) : (pyStrip l).length ≤ l.length := by
  unfold pyStrip
  calc (((l.reverse.dropWhile pySpace).reverse).dropWhile pySpace).length
      ≤ ((l.reverse.dropWhile pySpace).reverse).length :=
        length_dropWhile_le _ _
    _ = (l.reverse.dropWhile pySpace).length := List.length_reverse _
    _ ≤ l.reverse.length := length_dropWhile_le _ _
    _ = l.length := List.length_reverse _

theorem pyStrip_append_space (l : List Char) :
    pyStrip (l ++ [' ']) = pyStrip l := by
  unfold pyStrip
  rw [List.reverse_append]
  simp [List.dropWhile, pySpace]

theorem rawOf_append_single (g : List (List Char)) (s : List Char) :
    rawOf (g ++ [s]) = rawOf g ++ (s ++ [' ']) := by
  simp [rawOf]

theorem rawOf_ne_nil {g : List (List Char)} (h : g ≠ []) : rawOf g ≠ [] := by
  match g with
  | x :: xs =>
    simp only [rawOf, List.map_cons, List.flatten_cons, ne_eq,
      List.append_eq_nil]
    intro hc
    exact absurd hc.1 (by simp)

theorem joinSp_append_single (l : List (List Char)) (w : List Char) :
    joinSp (l ++ [w]) =
      if l.isEmpty then w else joinSp l ++ ' ' :: w := by
  induction l with
  | nil => rfl
  | cons x xs ih =>
    cases xs with
    | nil => rfl
    | cons y ys =>
      have e2 : joinSp (x :: y :: (ys ++ [w])) =
          x ++ ' ' :: joinSp (y :: (ys ++ [w])) := rfl
      have e3 : joinSp (x :: y :: ys) = x ++ ' ' :: joinSp (y :: ys) := rfl
      calc joinSp ((x :: y :: ys) ++ [w])
          = x ++ ' ' :: joinSp ((y :: ys) ++ [w]) := e2
        _ = x ++ ' ' :: (joinSp (y :: ys) ++ ' ' :: w) := by
            rw [ih]; rfl
        _ = if (x :: y :: ys).isEmpty then w
              else joinSp (x :: y :: ys) ++ ' ' :: w := by
            rw [e3]; simp

/-! ## C9: idempotence of the final newline normalization -/

theorem ffmAux_replicate (p : Nat) (l : List Char) (q : Nat) :
    ffmAux (List.replicate p '\n' ++ l) q = ffmAux l (q + p) := by
  induction p generalizing q with
  | zero => simp
  | succ n ih =>
    rw [List.replicate_succ, List.cons_append]
    calc ffmAux ('\n' :: (List.replicate n '\n' ++ l)) q
        = ffmAux (List.replicate n '\n' ++ l) (q + 1) := by simp [ffmAux]
      _ = ffmAux l (q + 1 + n) := ih (q + 1)
      _ = ffmAux l (q + (n + 1)) := by ring_nf

theorem emitNl_small (p : Nat) (h : p ≤ 2) : emitNl p = List.replicate p '\n' := by
  unfold emitNl
  have : ¬ 3 ≤ p := by omega
  simp [this]

theorem ffm_idem_aux (l : List Char) :
    ∀ p, ffmAux (ffmAux l p) 0 = ffmAux l p := by
  induction l with
  | nil =>
    intro p
    show ffmAux (emitNl p) 0 = emitNl p
    have hk : emitNl p = List.replicate (if 3 ≤ p then 2 else p) '\n' := rfl
    have h2 : (if 3 ≤ p then 2 else p) ≤ 2 := by split <;> omega
    calc ffmAux (emitNl p) 0
        = ffmAux (List.replicate (if 3 ≤ p then 2 else p) '\n' ++ []) 0 := by
          rw [List.append_nil, hk]
      _ = ffmAux [] (0 + (if 3 ≤ p then 2 else p)) := ffmAux_replicate _ _ _
      _ = emitNl (0 + (if 3 ≤ p then 2 else p)) := rfl
      _ = List.replicate (if 3 ≤ p then 2 else p) '\n' := by
          rw [Nat.zero_add, emitNl_small _ h2]
      _ = emitNl p := hk.symm
  | cons c cs ih =>
    intro p
    by_cases hc : c = '\n'
    · subst hc
      show ffmAux (ffmAux cs (p + 1)) 0 = ffmAux cs (p + 1)
      exact ih (p + 1)
    · have h1 : ffmAux (c :: cs) p = emitNl p ++ c :: ffmAux cs 0 := by
        simp [ffmAux, hc]
      have hk : emitNl p = List.replicate (if 3 ≤ p then 2 else p) '\n' := rfl
      have h2 : (if 3 ≤ p then 2 else p) ≤ 2 := by split <;> omega
      rw [h1]
      calc ffmAux (emitNl p ++ c :: ffmAux cs 0) 0
          = ffmAux (List.replicate (if 3 ≤ p then 2 else p) '\n' ++
              (c :: ffmAux cs 0)) 0 := by rw [hk]
        _ = ffmAux (c :: ffmAux cs 0) (0 + (if 3 ≤ p then 2 else p)) :=
            ffmAux_replicate _ _ _
        _ = emitNl (0 + (if 3 ≤ p then 2 else p)) ++
              c :: ffmAux (ffmAux cs 0) 0 := by simp [ffmAux, hc]
        _ = emitNl p ++ c :: ffmAux cs 0 := by
            rw [Nat.zero_add, emitNl_small _ h2, ih 0, hk]

/-- C9: the final-output whitespace normalization is idempotent: applying
`format_final_markdown` (collapse every run of 3 or more newlines to exactly
2) twice equals applying it once; after one pass no run of 3 or more
newlines remains to be collapsed. -/
theorem C9_format_final_markdown_idempotent (s : List Char) :
    format_final_markdown (format_final_markdown s) =
      format_final_markdown s :=
  ffm_idem_aux s 0

/-! ## C10: uninitialised client is a raised error, not an absent result -/

/-- C10: when the AIProcessor's client is not initialised,
`process_chunk_with_ai` raises `RuntimeError` (the check precedes the
`try`): the call's outcome is the propagated error, for every remote
outcome and parse outcome, never an absorbed empty-string result. -/
theorem C10_client_guard_raises (oc : RemoteOutcome)
    (parse : Except (List Char) Unit) :
    process_chunk_with_ai false oc parse = Except.error rtNotInitMsg := by
  rfl

/-! ## C7: markdown validation failure never turns a result absent -/

/-- C7: for a chunk whose remote call succeeds, `_validate_markdown` returns
the raw rewritten text unchanged whatever the parse attempt's outcome (a
failure only adds a warning log), so `process_chunk_with_ai` still returns
that text rather than an absent result. -/
theorem C7_validation_failure_keeps_text (t : List Char)
    (parse : Except (List Char) Unit) :
    (validate_markdown parse t).1 = t ∧
      process_chunk_with_ai true (RemoteOutcome.ok t) parse =
        Except.ok (t, (validate_markdown parse t).2) := by
  cases parse <;> exact ⟨rfl, rfl⟩

/-! ## C5: behaviour of the pipeline on empty input

`re.split(r'(?<=[.!?]) +', "")` is `[""]`, so `split_text_into_chunks("")`
accumulates the empty sentence into `current_chunk = " "`, which is truthy
and flushed stripped: the result is `[""]`, one empty chunk, not an empty
batch. `chunk_text("")` does yield `[]` since `"".split()` is `[]`. -/

theorem split_text_into_chunks_empty (maxN : Int) :
    split_text_into_chunks maxN [] = [[]] := by
  have hstrip : pyStrip [' '] = [] := by decide
  have hbase : chunksFromSentences maxN [] [' '] = [[]] := by
    show (if ([' '] : List Char).isEmpty then [] else [pyStrip [' ']]) = [[]]
    rw [hstrip]
    rfl
  show chunksFromSentences maxN [[]] [] = [[]]
  simp only [chunksFromSentences]
  split
  · exact hbase
  · show ([] : List (List Char)) ++ chunksFromSentences maxN [] [' '] = [[]]
    rw [List.nil_append]
    exact hbase

/-- C5 counterexample: splitting the empty string with the sentence chunker
yields a batch with one (empty) chunk, not an empty batch, refuting
"splitting the empty string with either chunker yields an empty batch". -/
theorem C5_counterexample_empty_split :
    split_text_into_chunks 7000 "".data = [[]] ∧
      ([[]] : List (List Char)) ≠ [] :=
  ⟨by decide, by decide⟩

/-- C5 amended: splitting the empty string with the word chunker yields an
empty batch, but the sentence chunker yields a batch with a single empty
chunk (for every max size), so text simplification of empty input
dispatches one transform on the empty chunk and yields the empty string
when that transform fails; synthesizing empty text (whose word chunking is
the empty batch) yields a zero-length track; none of these operations
raise (all are total). -/
theorem C5_amended_empty_input (size maxN : Int) (e : List Char)
    (parse : Except (List Char) Unit) (debugMode : Bool) (dir : List Char) :
    chunk_text [] size = [] ∧
      split_text_into_chunks maxN [] = [[]] ∧
      simplified_content [(RemoteOutcome.err e, parse)] = [] ∧
      tts_final_audio debugMode dir [] = [] :=
  ⟨rfl, split_text_into_chunks_empty maxN, rfl, rfl⟩

/-! ## C6: non-positive max size does not raise

Neither chunker validates its size parameter. With `maxUnitSize ≤ 0` the
accumulate condition never holds (the candidate length is at least 1), so
both loops terminate normally and silently emit chunks: the sentence
chunker emits each (trimmed) sentence as its own chunk, and the word
chunker emits a leading empty chunk (flushing the initially empty
`current_chunk`) followed by each word as its own chunk. There is no
InvalidConfiguration error anywhere in the source. -/

theorem chunksFromSentences_nonpos (N : Int) (hN : N ≤ 0) :
    ∀ (ss : List (List Char)) (current : List Char), current ≠ [] →
      chunksFromSentences N ss current =
        pyStrip current :: ss.map (fun s => pyStrip (s ++ [' '])) := by
  intro ss
  induction ss with
  | nil =>
    intro current hcur
    have h : current.isEmpty = false := by
      cases current with
      | nil => exact absurd rfl hcur
      | cons a l => rfl
    show (if current.isEmpty then [] else [pyStrip current]) = _
    rw [h]
    rfl
  | cons s rest ih =>
    intro current hcur
    have h : current.isEmpty = false := by
      cases current with
      | nil => exact absurd rfl hcur
      | cons a l => rfl
    simp only [chunksFromSentences]
    have hc : ¬ ((current.length + s.length + 1 : Int) ≤ N) := by omega
    rw [if_neg hc, h]
    show pyStrip current :: chunksFromSentences N rest (s ++ [' ']) = _
    rw [ih (s ++ [' ']) (by simp)]
    simp

theorem chunksFromWords_nonpos (N : Int) (hN : N ≤ 0) :
    ∀ (ws : List (List Char)) (w : List Char) (len : Nat),
      chunksFromWords N ws [w] len = w :: ws := by
  intro ws
  induction ws with
  | nil => intro w len; rfl
  | cons w' rest ih =>
    intro w len
    simp only [chunksFromWords]
    have hc : ((len + w'.length + 1 : Int) > N) := by omega
    rw [if_pos hc, ih w' w'.length]
    rfl

/-- C6 counterexample: with max unit size 0, both chunkers return normally
and silently produce chunks (each sentence, resp. an empty leading chunk
then each word) instead of failing with an InvalidConfiguration error; no
validation or error path exists in either function. -/
theorem C6_counterexample_nonpositive_size :
    split_text_into_chunks 0 "a. b".data = ["a.".data, "b".data] ∧
      chunk_text "a b".data 0 = [[], "a".data, "b".data] :=
  ⟨by decide, by decide⟩

/-- C6 amended: for every max unit size `N ≤ 0` and every input text,
neither chunker raises or loops: the sentence chunker terminates emitting
each trimmed sentence as its own chunk, and the word chunker terminates
emitting a leading empty chunk followed by each word as its own chunk. -/
theorem C6_amended_nonpositive_size (N : Int) (hN : N ≤ 0)
    (text : List Char) :
    split_text_into_chunks N text = (sentence_split text).map pyStrip ∧
      chunk_text text N =
        (if (pyWords text).isEmpty then [] else [] :: pyWords text) := by
  constructor
  · show chunksFromSentences N (sentence_split text) [] = _
    generalize sentence_split text = ss
    cases ss with
    | nil => rfl
    | cons s rest =>
      simp only [chunksFromSentences]
      have hc : ¬ ((([] : List Char).length + s.length + 1 : Int) ≤ N) := by
        omega
      rw [if_neg hc]
      show ([] : List (List Char)) ++
          chunksFromSentences N rest (s ++ [' ']) = _
      rw [List.nil_append,
        chunksFromSentences_nonpos N hN rest (s ++ [' ']) (by simp),
        pyStrip_append_space]
      simp only [List.map_cons, List.cons.injEq, true_and]
      apply List.map_congr_left
      intro x _
      exact pyStrip_append_space x
  · show chunksFromWords N (pyWords text) [] 0 = _
    generalize pyWords text = ws
    cases ws with
    | nil => rfl
    | cons w rest =>
      simp only [chunksFromWords]
      have hc : (((0 : Nat) + w.length + 1 : Int) > N) := by omega
      rw [if_pos hc, chunksFromWords_nonpos N hN rest w w.length]
      rfl

/-! ## C1: index-order restoration by the dispatcher

`asyncio.gather(*tasks)` (cli.py lines 75-76) allots one result slot per
task in argument order; a completing task writes only its own slot. In
`gatherScrambled` the completion order is an explicit input, so the claim
is: for every completion order that is a permutation of the index range,
slot `i` ends up holding the outcome of transforming unit `i`. -/

theorem foldl_set_length {β : Type} (v : Nat → Option β) :
    ∀ (order : List Nat) (acc : List (Option β)),
      (order.foldl (fun a j => a.set j (v j)) acc).length = acc.length := by
  intro order
  induction order with
  | nil => intro acc; rfl
  | cons j rest ih =>
    intro acc
    show (rest.foldl (fun a k => a.set k (v k)) (acc.set j (v j))).length =
      acc.length
    rw [ih, List.length_set]

theorem foldl_set_getElem {β : Type} (v : Nat → Option β) :
    ∀ (order : List Nat) (acc : List (Option β)) (i : Nat), i < acc.length →
      (order.foldl (fun a j => a.set j (v j)) acc)[i]? =
        if i ∈ order then some (v i) else acc[i]? := by
  intro order
  induction order with
  | nil => intro acc i hi; simp
  | cons j rest ih =>
    intro acc i hi
    show (rest.foldl (fun a k => a.set k (v k)) (acc.set j (v j)))[i]? =
      if i ∈ j :: rest then some (v i) else acc[i]?
    rw [ih (acc.set j (v j)) i (by rw [List.length_set]; exact hi)]
    by_cases hmem : i ∈ rest
    · simp [hmem, List.mem_cons]
    · rw [if_neg hmem]
      by_cases hij : i = j
      · subst hij
        rw [List.getElem?_set]
        simp [hi]
      · rw [List.getElem?_set, if_neg (fun h => hij h.symm)]
        have : i ∉ j :: rest := by
          simp [List.mem_cons, hij, hmem]
        rw [if_neg this]

/-- C1: for every batch and transform, and every completion order that is a
permutation of the index range (a later-indexed unit may complete before an
earlier one), the slot array `asyncio.gather` assembles equals the in-order
map of the transform over the batch: `results[i]` is the outcome of
transforming unit `i`. -/
theorem C1_gather_restores_index_order {α β : Type} (chunks : List α)
    (f : α → β) (order : List Nat)
    (hperm : order.Perm (List.range chunks.length)) :
    gatherScrambled chunks f order = chunks.map (fun c => some (f c)) := by
  apply List.ext_getElem?
  intro i
  by_cases hi : i < chunks.length
  · rw [show gatherScrambled chunks f order =
      order.foldl (fun a j => a.set j (chunks[j]?.map f))
        (List.replicate chunks.length none) from rfl]
    rw [foldl_set_getElem (fun j => chunks[j]?.map f) order _ i
      (by rw [List.length_replicate]; exact hi)]
    have hmem : i ∈ order := hperm.mem_iff.mpr (List.mem_range.mpr hi)
    rw [if_pos hmem, List.getElem?_map, List.getElem?_eq_getElem hi]
    rfl
  · push_neg at hi
    have h1 : (gatherScrambled chunks f order).length = chunks.length := by
      show (order.foldl (fun a j => a.set j (chunks[j]?.map f))
        (List.replicate chunks.length none)).length = chunks.length
      rw [foldl_set_length, List.length_replicate]
    rw [List.getElem?_eq_none (by rw [h1]; omega),
      List.getElem?_eq_none (by rw [List.length_map]; omega)]

/-- Witness for C1 at a three-unit batch whose completion order `[2, 0, 1]`
finishes unit 2 first. -/
theorem C1_witness :
    ([2, 0, 1] : List Nat).Perm (List.range 3) ∧
      gatherScrambled ["u0".data, "u1".data, "u2".data]
          (fun c => c ++ "!".data) [2, 0, 1] =
        ["u0".data, "u1".data, "u2".data].map
          (fun c => some (c ++ "!".data)) :=
  ⟨by decide,
    C1_gather_restores_index_order ["u0".data, "u1".data, "u2".data]
      (fun c => c ++ "!".data) [2, 0, 1] (by decide)⟩

/-! ## C4: chunk-boundary preservation

Each chunker's output is a partition of its boundary-delimited segment list
into consecutive groups: the word chunker's chunks are exactly the
space-joins of consecutive word groups, the sentence chunker's chunks are
exactly the whitespace-trimmed accumulations of consecutive sentence
groups. No segment is dropped, split, duplicated or reordered; only
whitespace at the chunk boundaries is normalized (the trailing separator
space is trimmed). -/

theorem chunksFromSentences_partition (maxN : Int) :
    ∀ (ss : List (List Char)) (g : List (List Char)),
      ∃ gs : List (List (List Char)),
        gs.flatten = g ++ ss ∧
        chunksFromSentences maxN ss (rawOf g) =
          gs.map (fun x => pyStrip (rawOf x)) := by
  intro ss
  induction ss with
  | nil =>
    intro g
    by_cases hg : g = []
    · subst hg
      exact ⟨[], by simp, rfl⟩
    · refine ⟨[g], by simp, ?_⟩
      have h := rawOf_ne_nil hg
      have hie : (rawOf g).isEmpty = false := by
        cases hrw : rawOf g with
        | nil => exact absurd hrw h
        | cons a l => rfl
      show (if (rawOf g).isEmpty then [] else [pyStrip (rawOf g)]) =
        [pyStrip (rawOf g)]
      rw [hie]
      rfl
  | cons s rest ih =>
    intro g
    by_cases hcond : (((rawOf g).length + s.length + 1 : Int) ≤ maxN)
    · have harg : rawOf g ++ s ++ [' '] = rawOf (g ++ [s]) := by
        rw [rawOf_append_single, List.append_assoc]
      obtain ⟨gs, hjoin, hres⟩ := ih (g ++ [s])
      refine ⟨gs, by rw [hjoin]; simp, ?_⟩
      simp only [chunksFromSentences]
      rw [if_pos hcond, harg, hres]
    · by_cases hg : g = []
      · subst hg
        obtain ⟨gs, hjoin, hres⟩ := ih [s]
        refine ⟨gs, by simpa using hjoin, ?_⟩
        simp only [chunksFromSentences]
        rw [if_neg hcond]
        show ([] : List (List Char)) ++
          chunksFromSentences maxN rest (s ++ [' ']) = gs.map _
        rw [List.nil_append, show s ++ [' '] = rawOf [s] from by
          simp [rawOf], hres]
      · obtain ⟨gs, hjoin, hres⟩ := ih [s]
        refine ⟨g :: gs, by rw [List.flatten_cons, hjoin]; simp, ?_⟩
        have hie : (rawOf g).isEmpty = false := by
          cases hrw : rawOf g with
          | nil => exact absurd hrw (rawOf_ne_nil hg)
          | cons a l => rfl
        simp only [chunksFromSentences]
        rw [if_neg hcond, hie]
        show [pyStrip (rawOf g)] ++
          chunksFromSentences maxN rest (s ++ [' ']) = _
        rw [show s ++ [' '] = rawOf [s] from by simp [rawOf], hres]
        rfl

theorem chunksFromWords_partition (size : Int) :
    ∀ (ws : List (List Char)) (g : List (List Char)) (curLen : Nat),
      ∃ gs : List (List (List Char)),
        gs.flatten = g ++ ws ∧
        chunksFromWords size ws g curLen = gs.map joinSp := by
  intro ws
  induction ws with
  | nil =>
    intro g curLen
    by_cases hg : g = []
    · subst hg
      exact ⟨[], by simp, rfl⟩
    · refine ⟨[g], by simp, ?_⟩
      have hie : g.isEmpty = false := by
        cases g with
        | nil => exact absurd rfl hg
        | cons a l => rfl
      show (if g.isEmpty then [] else [joinSp g]) = [joinSp g]
      rw [hie]
      rfl
  | cons w rest ih =>
    intro g curLen
    by_cases hcond : ((curLen + w.length + 1 : Int) > size)
    · obtain ⟨gs, h1, h2⟩ := ih [w] w.length
      refine ⟨g :: gs, by rw [List.flatten_cons, h1]; simp, ?_⟩
      simp only [chunksFromWords]
      rw [if_pos hcond, h2]
      rfl
    · obtain ⟨gs, h1, h2⟩ := ih (g ++ [w]) (curLen + w.length + 1)
      refine ⟨gs, by rw [h1]; simp, ?_⟩
      simp only [chunksFromWords]
      rw [if_neg hcond, h2]

/-- C4: re-joining either chunker's output reproduces the original
boundary-delimited segments in order, with no segment dropped, split or
duplicated, modulo whitespace normalization at chunk boundaries: the
sentence chunker's chunks are the trimmed accumulations of a consecutive
partition of the sentence list, and the word chunker's chunks are the
space-joins of a consecutive partition of the word list. -/
theorem C4_chunk_partition (maxN size : Int) (text : List Char) :
    (∃ gs : List (List (List Char)),
        gs.flatten = sentence_split text ∧
        split_text_into_chunks maxN text =
          gs.map (fun g => pyStrip (rawOf g))) ∧
    (∃ gs : List (List (List Char)),
        gs.flatten = pyWords text ∧
        chunk_text text size = gs.map joinSp) := by
  constructor
  · obtain ⟨gs, h1, h2⟩ :=
      chunksFromSentences_partition maxN (sentence_split text) []
    exact ⟨gs, by simpa using h1, h2⟩
  · obtain ⟨gs, h1, h2⟩ :=
      chunksFromWords_partition size (pyWords text) [] 0
    exact ⟨gs, by simpa using h1, h2⟩

/-! ## C3: chunk size bound

Every chunk respects the max size, except a chunk holding a single atomic
segment (one sentence, resp. one word) that is itself oversized. -/

theorem sentence_emission_bound (maxN : Int) (S : List (List Char))
    (current : List Char)
    (hinv : ((current.length : Int) ≤ maxN) ∨
      ∃ s ∈ S, current = s ++ [' ']) :
    ((pyStrip current).length : Int) ≤ maxN ∨
      ∃ s ∈ S, pyStrip current = pyStrip s ∧ ((s.length : Int) > maxN) := by
  rcases hinv with h | ⟨s, hs, rfl⟩
  · left
    have := pyStrip_length_le current
    omega
  · rw [pyStrip_append_space]
    by_cases hlen : (((pyStrip s).length : Int) ≤ maxN)
    · left
      exact hlen
    · right
      have := pyStrip_length_le s
      exact ⟨s, hs, rfl, by omega⟩

theorem chunksFromSentences_size (maxN : Int) (S : List (List Char)) :
    ∀ (ss : List (List Char)) (current : List Char),
      (∀ s ∈ ss, s ∈ S) →
      (current = [] ∨ ((current.length : Int) ≤ maxN) ∨
        ∃ s ∈ S, current = s ++ [' ']) →
      ∀ c ∈ chunksFromSentences maxN ss current,
        ((c.length : Int) ≤ maxN) ∨
          ∃ s ∈ S, c = pyStrip s ∧ ((s.length : Int) > maxN) := by
  intro ss
  induction ss with
  | nil =>
    intro current hss hinv c hc
    cases current with
    | nil => simp [chunksFromSentences] at hc
    | cons a l =>
      have he : chunksFromSentences maxN [] (a :: l) = [pyStrip (a :: l)] :=
        rfl
      rw [he] at hc
      simp only [List.mem_singleton] at hc
      subst hc
      rcases hinv with h | h | h
      · exact absurd h (by simp)
      · rcases sentence_emission_bound maxN S (a :: l) (Or.inl h) with
          h' | ⟨s, hs, he', hl⟩
        · exact Or.inl h'
        · exact Or.inr ⟨s, hs, he', hl⟩
      · rcases sentence_emission_bound maxN S (a :: l) (Or.inr h) with
          h' | ⟨s, hs, he', hl⟩
        · exact Or.inl h'
        · exact Or.inr ⟨s, hs, he', hl⟩
  | cons s rest ih =>
    intro current hss hinv c hc
    simp only [chunksFromSentences] at hc
    by_cases hcond : ((current.length + s.length + 1 : Int) ≤ maxN)
    · rw [if_pos hcond] at hc
      refine ih (current ++ s ++ [' '])
        (fun x hx => hss x (List.mem_cons_of_mem _ hx)) ?_ c hc
      right
      left
      have : ((current ++ s ++ [' ']).length : Int) =
          current.length + s.length + 1 := by
        simp
        ring
      rw [this]
      exact hcond
    · rw [if_neg hcond] at hc
      rcases List.mem_append.mp hc with hc1 | hc2
      · cases current with
        | nil => simp at hc1
        | cons a l =>
          have he : (if (a :: l).isEmpty then ([] : List (List Char))
              else [pyStrip (a :: l)]) = [pyStrip (a :: l)] := rfl
          rw [he] at hc1
          simp only [List.mem_singleton] at hc1
          subst hc1
          rcases hinv with h | h | h
          · exact absurd h (by simp)
          · rcases sentence_emission_bound maxN S (a :: l) (Or.inl h) with
              h' | ⟨x, hx, he', hl⟩
            · exact Or.inl h'
            · exact Or.inr ⟨x, hx, he', hl⟩
          · rcases sentence_emission_bound maxN S (a :: l) (Or.inr h) with
              h' | ⟨x, hx, he', hl⟩
            · exact Or.inl h'
            · exact Or.inr ⟨x, hx, he', hl⟩
      · refine ih (s ++ [' '])
          (fun x hx => hss x (List.mem_cons_of_mem _ hx)) ?_ c hc2
        right
        right
        exact ⟨s, hss s (List.mem_cons_self s rest), rfl⟩

theorem word_emission_bound (size : Int) (W : List (List Char))
    (current : List (List Char)) (curLen : Nat)
    (hW : ∀ w ∈ current, w ∈ W)
    (hlen : ((joinSp current).length : Int) ≤ (curLen : Int))
    (hdisj : ((curLen : Int) ≤ size) ∨ ∃ w, current = [w]) :
    ((joinSp current).length : Int) ≤ size ∨
      ∃ w ∈ W, joinSp current = w ∧ ((w.length : Int) > size) := by
  rcases hdisj with h | ⟨w, rfl⟩
  · left
    omega
  · have hj : joinSp [w] = w := rfl
    rw [hj]
    by_cases hw : ((w.length : Int) ≤ size)
    · left
      exact hw
    · right
      exact ⟨w, hW w (by simp), rfl, by omega⟩

theorem chunksFromWords_size (size : Int) (W : List (List Char)) :
    ∀ (ws : List (List Char)) (current : List (List Char)) (curLen : Nat),
      (∀ w ∈ ws, w ∈ W) → (∀ w ∈ current, w ∈ W) →
      ((joinSp current).length : Int) ≤ (curLen : Int) →
      (((curLen : Int) ≤ size) ∨ ∃ w, current = [w]) →
      ∀ c ∈ chunksFromWords size ws current curLen,
        ((c.length : Int) ≤ size) ∨
          ∃ w ∈ W, c = w ∧ ((w.length : Int) > size) := by
  intro ws
  induction ws with
  | nil =>
    intro current curLen hws hcurW hlen hdisj c hc
    cases current with
    | nil => simp [chunksFromWords] at hc
    | cons a l =>
      have he : chunksFromWords size [] (a :: l) curLen =
          [joinSp (a :: l)] := rfl
      rw [he] at hc
      simp only [List.mem_singleton] at hc
      subst hc
      rcases word_emission_bound size W (a :: l) curLen hcurW hlen hdisj with
        h' | ⟨w, hw, he', hl⟩
      · exact Or.inl h'
      · exact Or.inr ⟨w, hw, he', hl⟩
  | cons w rest ih =>
    intro current curLen hws hcurW hlen hdisj c hc
    simp only [chunksFromWords] at hc
    by_cases hcond : ((curLen + w.length + 1 : Int) > size)
    · rw [if_pos hcond] at hc
      rcases List.mem_cons.mp hc with hc1 | hc2
      · subst hc1
        rcases word_emission_bound size W current curLen hcurW hlen hdisj
          with h' | ⟨x, hx, he', hl⟩
        · exact Or.inl h'
        · exact Or.inr ⟨x, hx, he', hl⟩
      · refine ih [w] w.length
          (fun x hx => hws x (List.mem_cons_of_mem _ hx))
          (fun x hx => by
            rw [List.mem_singleton] at hx
            rw [hx]
            exact hws w (List.mem_cons_self w rest)) ?_
          (Or.inr ⟨w, rfl⟩) c hc2
        have hj : joinSp [w] = w := rfl
        rw [hj]
    · rw [if_neg hcond] at hc
      refine ih (current ++ [w]) (curLen + w.length + 1)
        (fun x hx => hws x (List.mem_cons_of_mem _ hx))
        (fun x hx => by
          rcases List.mem_append.mp hx with h | h
          · exact hcurW x h
          · rw [List.mem_singleton] at h
            rw [h]
            exact hws w (List.mem_cons_self w rest)) ?_ ?_ c hc
      · rw [joinSp_append_single]
        by_cases hg : current.isEmpty
        · rw [if_pos hg]
          push_cast
          omega
        · rw [if_neg hg]
          have : (joinSp current ++ ' ' :: w).length =
              (joinSp current).length + 1 + w.length := by
            simp
            ring
          rw [this]
          push_cast
          omega
      · left
        push_cast
        omega

/-- C3: every chunk either produced by the sentence chunker or by the word
chunker with max unit size `N ≥ 0` has length at most `N`, except a chunk
consisting of a single atomic segment (the trim of one sentence, resp. one
word) whose own length exceeds `N`, emitted as its own oversized chunk. -/
theorem C3_chunk_size_bound (N : Int) (hN : 0 ≤ N) (text : List Char) :
    (∀ c ∈ split_text_into_chunks N text,
        ((c.length : Int) ≤ N) ∨
          ∃ s ∈ sentence_split text,
            c = pyStrip s ∧ ((s.length : Int) > N)) ∧
    (∀ c ∈ chunk_text text N,
        ((c.length : Int) ≤ N) ∨
          ∃ w ∈ pyWords text, c = w ∧ ((w.length : Int) > N)) := by
  constructor
  · intro c hc
    exact chunksFromSentences_size N (sentence_split text)
      (sentence_split text) [] (fun s hs => hs) (Or.inl rfl) c hc
  · intro c hc
    refine chunksFromWords_size N (pyWords text) (pyWords text) [] 0
      (fun w hw => hw) (by simp) ?_ (Or.inl (by exact_mod_cast hN)) c hc
    have hj : joinSp [] = [] := rfl
    rw [hj]
    simp

/-- Witness for C3 at `N = 5`, `text = "aaaaaa b"` (the oversized word
`aaaaaa` is emitted as its own chunk). -/
theorem C3_witness :
    (0 : Int) ≤ 5 ∧
      ((∀ c ∈ split_text_into_chunks 5 "aaaaaa b".data,
          ((c.length : Int) ≤ 5) ∨
            ∃ s ∈ sentence_split "aaaaaa b".data,
              c = pyStrip s ∧ ((s.length : Int) > 5)) ∧
        (∀ c ∈ chunk_text "aaaaaa b".data 5,
          ((c.length : Int) ≤ 5) ∨
            ∃ w ∈ pyWords "aaaaaa b".data,
              c = w ∧ ((w.length : Int) > 5))) :=
  ⟨by decide, C3_chunk_size_bound 5 (by decide) "aaaaaa b".data⟩

/-- Witness for C6 amended at `N = 0`, `text = "x. y"`. -/
theorem C6_amended_witness :
    (0 : Int) ≤ 0 ∧
      (split_text_into_chunks 0 "x. y".data =
          (sentence_split "x. y".data).map pyStrip ∧
        chunk_text "x. y".data 0 =
          (if (pyWords "x. y".data).isEmpty then []
            else [] :: pyWords "x. y".data)) :=
  ⟨by decide, C6_amended_nonpositive_size 0 (by decide) "x. y".data⟩

/-! ## C2: partial failure tolerance

A unit whose remote rewrite call fails resolves to the empty string (its
slot in `simplified_list`), never to a raised error; the join step keeps
exactly the successful nonempty texts in index order. The audio loop skips
a failed unit and appends the successful segments in order. The text
stage's failure log, however, interpolates only the exception — the
coroutine does not even receive its index — while the audio loop logs the
1-based chunk index. -/

theorem chunkResult_ok (t : List Char) (parse : Except (List Char) Unit) :
    chunkResult (RemoteOutcome.ok t, parse) = t := by
  cases parse <;> rfl

theorem chunkResult_err (e : List Char) (parse : Except (List Char) Unit) :
    chunkResult (RemoteOutcome.err e, parse) = [] := rfl

theorem process_chunk_ready_never_raises (oc : RemoteOutcome)
    (parse : Except (List Char) Unit) :
    ∃ v, process_chunk_with_ai true oc parse = Except.ok v := by
  cases oc <;> cases parse <;> exact ⟨_, rfl⟩

theorem simplified_list_resolves (units : List TextUnit) :
    simplified_list units = units.map (fun u =>
      match u.1 with
      | RemoteOutcome.ok t => t
      | RemoteOutcome.err _ => []) := by
  show units.map chunkResult = _
  apply List.map_congr_left
  intro u _
  obtain ⟨oc, parse⟩ := u
  cases oc <;> cases parse <;> rfl

theorem filter_nonempty_results (units : List TextUnit) :
    (simplified_list units).filter (fun t => !t.isEmpty) =
      (okTexts units).filter (fun t => !t.isEmpty) := by
  induction units with
  | nil => rfl
  | cons u rest ih =>
    obtain ⟨oc, parse⟩ := u
    cases oc with
    | ok t =>
      show (chunkResult (RemoteOutcome.ok t, parse) ::
        simplified_list rest).filter _ = _
      rw [chunkResult_ok]
      have hok : okTexts ((RemoteOutcome.ok t, parse) :: rest) =
          t :: okTexts rest := rfl
      rw [hok]
      simp only [List.filter_cons]
      rw [ih]
    | err e =>
      show (chunkResult (RemoteOutcome.err e, parse) ::
        simplified_list rest).filter _ = _
      rw [chunkResult_err]
      have herr : okTexts ((RemoteOutcome.err e, parse) :: rest) =
          okTexts rest := rfl
      rw [herr]
      simp only [List.filter_cons]
      simp [ih]

theorem simplified_joined_eq (units : List TextUnit) :
    simplified_joined units =
      List.intercalate nl2 ((okTexts units).filter (fun t => !t.isEmpty)) := by
  unfold simplified_joined
  rw [filter_nonempty_results]

theorem ttsRun_snd (debugMode : Bool) (dir : List Char) :
    ∀ (units : List AudioUnit) (st : List (List Char) × List (List Nat)),
      (units.foldl (ttsStep debugMode dir) st).2 = st.2 ++ succAudio units := by
  intro units
  induction units with
  | nil => intro st; simp [succAudio]
  | cons u rest ih =>
    intro st
    obtain ⟨oc, ts⟩ := u
    show (rest.foldl (ttsStep debugMode dir)
      (ttsStep debugMode dir st (oc, ts))).2 = _
    rw [ih]
    cases oc with
    | http200 a =>
      have h2 : (ttsStep debugMode dir st (SynthOutcome.http200 a, ts)).2 =
          st.2 ++ [a] := by
        cases debugMode <;> rfl
      rw [h2]
      have hs : succAudio ((SynthOutcome.http200 a, ts) :: rest) =
          a :: succAudio rest := rfl
      rw [hs]
      simp
    | httpFail code body =>
      have h2 : (ttsStep debugMode dir st
          (SynthOutcome.httpFail code body, ts)).2 = st.2 := rfl
      rw [h2]
      rfl
    | requestExc m =>
      have h2 : (ttsStep debugMode dir st
          (SynthOutcome.requestExc m, ts)).2 = st.2 := rfl
      rw [h2]
      rfl

/-- C2 counterexample: the text stage's failure log is the same whether the
failing unit sits at index 2 or at index 0 of the batch — the logged
message (ai_processor.py line 95) interpolates only the exception, so the
failed unit's index is not logged on the text path, refuting the claim's
"the unit's index is logged" for the text stage. -/
theorem C2_counterexample_no_index_in_text_log :
    stage_logs [(RemoteOutcome.ok "a".data, Except.ok ()),
        (RemoteOutcome.ok "b".data, Except.ok ()),
        (RemoteOutcome.err "boom".data, Except.ok ()),
        (RemoteOutcome.ok "d".data, Except.ok ())] =
      ["AI processing failed for chunk: boom".data] ∧
    stage_logs [(RemoteOutcome.err "boom".data, Except.ok ()),
        (RemoteOutcome.ok "a".data, Except.ok ()),
        (RemoteOutcome.ok "b".data, Except.ok ()),
        (RemoteOutcome.ok "d".data, Except.ok ())] =
      ["AI processing failed for chunk: boom".data] :=
  ⟨by decide, by decide⟩

/-- C2 amended: a unit's transform failure never raises out of the batch:
with the client initialised every unit resolves to `Except.ok`; the failed
unit's slot is the empty string (text) resp. a skipped `None` (audio); the
failure is logged (the audio path logs the unit's 1-based index, the text
path logs only the exception, without the index); the remaining units'
results are kept, and the stage's joined output (before final newline
normalization) is exactly the successful units' nonempty texts joined with
blank lines in index order, resp. the concatenation of the successful
units' audio in index order. -/
theorem C2_amended_partial_failure (units : List TextUnit)
    (audioUnits : List AudioUnit) (debugMode : Bool) (dir : List Char) :
    (∀ u ∈ units, ∃ v, process_chunk_with_ai true u.1 u.2 = Except.ok v) ∧
    (simplified_list units).length = units.length ∧
    simplified_list units = units.map (fun u =>
      match u.1 with
      | RemoteOutcome.ok t => t
      | RemoteOutcome.err _ => []) ∧
    simplified_joined units =
      List.intercalate nl2 ((okTexts units).filter (fun t => !t.isEmpty)) ∧
    tts_final_audio debugMode dir audioUnits =
      (succAudio audioUnits).flatten := by
  refine ⟨fun u _ => process_chunk_ready_never_raises u.1 u.2,
    by simp [simplified_list],
    simplified_list_resolves units, simplified_joined_eq units, ?_⟩
  show ((audioUnits.foldl (ttsStep debugMode dir) ([], [])).2).flatten = _
  rw [ttsRun_snd]
  simp

/-- Witness for C2 amended at a two-unit text batch whose second unit
fails and a two-unit audio batch whose second unit fails. -/
theorem C2_witness :
    ((∀ u ∈ ([(RemoteOutcome.ok "a".data, Except.ok ()),
          (RemoteOutcome.err "x".data, Except.ok ())] : List TextUnit),
        ∃ v, process_chunk_with_ai true u.1 u.2 = Except.ok v) ∧
      (simplified_list [(RemoteOutcome.ok "a".data, Except.ok ()),
          (RemoteOutcome.err "x".data, Except.ok ())]).length =
        ([(RemoteOutcome.ok "a".data, Except.ok ()),
          (RemoteOutcome.err "x".data, Except.ok ())] : List TextUnit).length ∧
      simplified_list [(RemoteOutcome.ok "a".data, Except.ok ()),
          (RemoteOutcome.err "x".data, Except.ok ())] =
        ([(RemoteOutcome.ok "a".data, Except.ok ()),
          (RemoteOutcome.err "x".data, Except.ok ())] : List TextUnit).map
          (fun u =>
            match u.1 with
            | RemoteOutcome.ok t => t
            | RemoteOutcome.err _ => []) ∧
      simplified_joined [(RemoteOutcome.ok "a".data, Except.ok ()),
          (RemoteOutcome.err "x".data, Except.ok ())] =
        List.intercalate nl2
          ((okTexts [(RemoteOutcome.ok "a".data, Except.ok ()),
            (RemoteOutcome.err "x".data, Except.ok ())]).filter
            (fun t => !t.isEmpty)) ∧
      tts_final_audio false "tts_audio".data
          [(SynthOutcome.http200 [1], "t1".data),
           (SynthOutcome.httpFail 500 "err".data, "t2".data)] =
        (succAudio [(SynthOutcome.http200 [1], "t1".data),
           (SynthOutcome.httpFail 500 "err".data, "t2".data)]).flatten) :=
  C2_amended_partial_failure
    [(RemoteOutcome.ok "a".data, Except.ok ()),
     (RemoteOutcome.err "x".data, Except.ok ())]
    [(SynthOutcome.http200 [1], "t1".data),
     (SynthOutcome.httpFail 500 "err".data, "t2".data)]
    false "tts_audio".data

/-! ## C8: debug artifact retention and temp-file cleanup

With debug off, the temp MP3 and temp WAV are created and removed within
each successful unit (the caller removes the returned WAV), and a failed
remote call writes nothing, so no per-unit artifact remains after the run.
With debug on, each success renames the temp WAV to
`tts_audio_dir/response_{timestamp}.wav`; `os.rename` overwrites, so two
successes within the same wall-clock second (the timestamp has second
granularity) retain ONE file, not two. -/

theorem ttsRun_nondebug_files (dir : List Char) :
    ∀ (units : List AudioUnit) (segs : List (List Nat)),
      (units.foldl (ttsStep false dir) ([], segs)).1 = [] := by
  intro units
  induction units with
  | nil => intro segs; rfl
  | cons u rest ih =>
    intro segs
    obtain ⟨oc, ts⟩ := u
    cases oc with
    | http200 a =>
      have hstep : ttsStep false dir ([], segs)
          (SynthOutcome.http200 a, ts) = ([], segs ++ [a]) := by
        show (removeFile (removeFile (addFile (addFile [] tempMp3) tempWav)
          tempMp3) tempWav, segs ++ [a]) = ([], segs ++ [a])
        rw [show removeFile (removeFile (addFile (addFile [] tempMp3)
          tempWav) tempMp3) tempWav = [] from by decide]
      show (rest.foldl (ttsStep false dir) (ttsStep false dir ([], segs)
        (SynthOutcome.http200 a, ts))).1 = []
      rw [hstep]
      exact ih (segs ++ [a])
    | httpFail code body =>
      show (rest.foldl (ttsStep false dir) (ttsStep false dir ([], segs)
        (SynthOutcome.httpFail code body, ts))).1 = []
      have hstep : ttsStep false dir ([], segs)
          (SynthOutcome.httpFail code body, ts) = ([], segs) := rfl
      rw [hstep]
      exact ih segs
    | requestExc m =>
      show (rest.foldl (ttsStep false dir) (ttsStep false dir ([], segs)
        (SynthOutcome.requestExc m, ts))).1 = []
      have hstep : ttsStep false dir ([], segs)
          (SynthOutcome.requestExc m, ts) = ([], segs) := rfl
      rw [hstep]
      exact ih segs

theorem debugWavPath_has_slash (dir ts : List Char) :
    '/' ∈ debugWavPath dir ts := by
  unfold debugWavPath
  exact List.mem_append_left _ (List.mem_append_left _
    (List.mem_append_right _ (by decide)))

theorem debugWavPath_ne_tempWav (dir ts : List Char) :
    debugWavPath dir ts ≠ tempWav := by
  intro h
  have := debugWavPath_has_slash dir ts
  rw [h] at this
  exact absurd this (by decide)

theorem debugWavPath_ne_tempMp3 (dir ts : List Char) :
    debugWavPath dir ts ≠ tempMp3 := by
  intro h
  have := debugWavPath_has_slash dir ts
  rw [h] at this
  exact absurd this (by decide)

theorem debugWavPath_inj {dir ts1 ts2 : List Char}
    (h : debugWavPath dir ts1 = debugWavPath dir ts2) : ts1 = ts2 := by
  unfold debugWavPath at h
  exact List.append_cancel_left (List.append_cancel_right h)

theorem ttsRun_debug_files (dir : List Char) :
    ∀ (units : List AudioUnit) (P : List (List Char))
      (segs : List (List Nat)),
      (∀ ts ∈ succTs units, debugWavPath dir ts ∉ P) →
      (succTs units).Pairwise (· ≠ ·) →
      tempMp3 ∉ P → tempWav ∉ P →
      (units.foldl (ttsStep true dir) (P, segs)).1 =
        P ++ (succTs units).map (debugWavPath dir) := by
  intro units
  induction units with
  | nil =>
    intro P segs h1 h2 h3 h4
    simp [succTs]
  | cons u rest ih =>
    intro P segs h1 h2 h3 h4
    obtain ⟨oc, ts⟩ := u
    cases oc with
    | http200 a =>
      have hsucc : succTs ((SynthOutcome.http200 a, ts) :: rest) =
          ts :: succTs rest := rfl
      rw [hsucc] at h1 h2 ⊢
      have hdbg : debugWavPath dir ts ∉ P :=
        h1 ts (List.mem_cons_self ts _)
      have e1 : addFile P tempMp3 = P ++ [tempMp3] := by
        unfold addFile
        rw [if_neg h3]
      have hn2 : tempWav ∉ P ++ [tempMp3] := by
        intro hmem
        rcases List.mem_append.mp hmem with h | h
        · exact h4 h
        · rw [List.mem_singleton] at h
          exact absurd h (by decide)
      have e2 : addFile (P ++ [tempMp3]) tempWav =
          (P ++ [tempMp3]) ++ [tempWav] := by
        unfold addFile
        rw [if_neg hn2]
      have e3 : removeFile ((P ++ [tempMp3]) ++ [tempWav]) tempMp3 =
          P ++ [tempWav] := by
        unfold removeFile
        rw [List.append_assoc, List.erase_append_right _ h3]
        congr 1
      have e4 : removeFile (P ++ [tempWav]) tempWav = P := by
        unfold removeFile
        rw [List.erase_append_right _ h4]
        simp
      have e5 : addFile P (debugWavPath dir ts) =
          P ++ [debugWavPath dir ts] := by
        unfold addFile
        rw [if_neg hdbg]
      have hstep : ttsStep true dir (P, segs)
          (SynthOutcome.http200 a, ts) =
          (P ++ [debugWavPath dir ts], segs ++ [a]) := by
        show (addFile (removeFile (removeFile (addFile (addFile P tempMp3)
          tempWav) tempMp3) tempWav) (debugWavPath dir ts), segs ++ [a]) = _
        rw [e1, e2, e3, e4, e5]
      show (rest.foldl (ttsStep true dir) (ttsStep true dir (P, segs)
        (SynthOutcome.http200 a, ts))).1 = _
      rw [hstep]
      have hpw := (List.pairwise_cons.mp h2)
      rw [ih (P ++ [debugWavPath dir ts]) (segs ++ [a]) ?_ hpw.2 ?_ ?_]
      · rw [List.append_assoc]
        rfl
      · intro ts' hts' hmem
        rcases List.mem_append.mp hmem with h | h
        · exact h1 ts' (List.mem_cons_of_mem _ hts') h
        · rw [List.mem_singleton] at h
          exact hpw.1 ts' hts' (debugWavPath_inj h).symm
      · intro hmem
        rcases List.mem_append.mp hmem with h | h
        · exact h3 h
        · rw [List.mem_singleton] at h
          exact debugWavPath_ne_tempMp3 dir ts h.symm
      · intro hmem
        rcases List.mem_append.mp hmem with h | h
        · exact h4 h
        · rw [List.mem_singleton] at h
          exact debugWavPath_ne_tempWav dir ts h.symm
    | httpFail code body =>
      have hsucc : succTs ((SynthOutcome.httpFail code body, ts) :: rest) =
          succTs rest := rfl
      rw [hsucc] at h1 h2 ⊢
      show (rest.foldl (ttsStep true dir) (ttsStep true dir (P, segs)
        (SynthOutcome.httpFail code body, ts))).1 = _
      have hstep : ttsStep true dir (P, segs)
          (SynthOutcome.httpFail code body, ts) = (P, segs) := rfl
      rw [hstep]
      exact ih P segs h1 h2 h3 h4
    | requestExc m =>
      have hsucc : succTs ((SynthOutcome.requestExc m, ts) :: rest) =
          succTs rest := rfl
      rw [hsucc] at h1 h2 ⊢
      show (rest.foldl (ttsStep true dir) (ttsStep true dir (P, segs)
        (SynthOutcome.requestExc m, ts))).1 = _
      have hstep : ttsStep true dir (P, segs)
          (SynthOutcome.requestExc m, ts) = (P, segs) := rfl
      rw [hstep]
      exact ih P segs h1 h2 h3 h4

/-- C8 counterexample: with debug mode enabled, two units that both
synthesize successfully within the same wall-clock second (the timestamp
`%Y%m%d_%H%M%S` has second granularity) produce the same artifact name, and
`os.rename` overwrites: the run retains ONE artifact file for TWO
successful units, refuting "each successfully synthesized unit leaves
exactly one retained artifact file". -/
theorem C8_counterexample_timestamp_collision :
    (ttsRun true "tts_audio".data
        [(SynthOutcome.http200 [1], "20250101_000000".data),
         (SynthOutcome.http200 [2], "20250101_000000".data)]).1 =
      ["tts_audio/response_20250101_000000.wav".data] ∧
    (succTs [(SynthOutcome.http200 [1], "20250101_000000".data),
        (SynthOutcome.http200 [2], "20250101_000000".data)]).length = 2 ∧
    (["tts_audio/response_20250101_000000.wav".data] :
      List (List Char)).length = 1 :=
  ⟨by decide, by decide, by decide⟩

/-- C8 amended: with debug mode disabled, no per-unit transient artifact
remains on disk after the run completes, whatever mix of successes and
remote failures the units have; with debug mode enabled, provided the
successful units' second-granularity timestamps are pairwise distinct, the
run retains exactly one timestamped artifact per successful unit in the
debug directory (same-second successes overwrite one another). -/
theorem C8_amended_artifact_retention (dir : List Char)
    (units : List AudioUnit) :
    (ttsRun false dir units).1 = [] ∧
      ((succTs units).Pairwise (· ≠ ·) →
        (ttsRun true dir units).1 =
            (succTs units).map (debugWavPath dir) ∧
          ((succTs units).map (debugWavPath dir)).Nodup) := by
  constructor
  · exact ttsRun_nondebug_files dir units []
  · intro hpw
    constructor
    · have h := ttsRun_debug_files dir units [] [] (by simp) hpw
        (by simp) (by simp)
      simpa using h
    · exact hpw.map (debugWavPath dir)
        (fun a b hab h => hab (debugWavPath_inj h))

/-- Witness for C8 amended: a three-unit batch (success, failure, success)
with distinct timestamps. -/
theorem C8_witness :
    ((ttsRun false "tts_audio".data
        [(SynthOutcome.http200 [1], "20250101_000000".data),
         (SynthOutcome.httpFail 500 "err".data, "20250101_000001".data),
         (SynthOutcome.http200 [2], "20250101_000002".data)]).1 = [] ∧
      ((succTs [(SynthOutcome.http200 [1], "20250101_000000".data),
          (SynthOutcome.httpFail 500 "err".data, "20250101_000001".data),
          (SynthOutcome.http200 [2], "20250101_000002".data)]).Pairwise
          (· ≠ ·) →
        (ttsRun true "tts_audio".data
            [(SynthOutcome.http200 [1], "20250101_000000".data),
             (SynthOutcome.httpFail 500 "err".data, "20250101_000001".data),
             (SynthOutcome.http200 [2], "20250101_000002".data)]).1 =
            (succTs [(SynthOutcome.http200 [1], "20250101_000000".data),
              (SynthOutcome.httpFail 500 "err".data,
                "20250101_000001".data),
              (SynthOutcome.http200 [2],
                "20250101_000002".data)]).map
              (debugWavPath "tts_audio".data) ∧
          ((succTs [(SynthOutcome.http200 [1], "20250101_000000".data),
              (SynthOutcome.httpFail 500 "err".data,
                "20250101_000001".data),
              (SynthOutcome.http200 [2],
                "20250101_000002".data)]).map
              (debugWavPath "tts_audio".data)).Nodup)) :=
  C8_amended_artifact_retention "tts_audio".data
    [(SynthOutcome.http200 [1], "20250101_000000".data),
     (SynthOutcome.httpFail 500 "err".data, "20250101_000001".data),
     (SynthOutcome.http200 [2], "20250101_000002".data)]
